import Mathlib

/-!
Verification of `packages/pygsti/algorithms/fiducialselection.py`.

The numerical scores in the source are Python floats.  We model them with
exact rational values together with the two infinities and the NaN value,
keeping the IEEE comparison structure (every comparison against NaN is
false) that the source's branches rely on.  The external linear-algebra
collaborator (`numpy.linalg.eigvalsh`) is out of scope per the spec, so
the scoring pipeline is embedded at the level of the eigenvalue spectrum
it returns; for concrete counterexamples we instantiate the model at
state dimension 1, where the Gram matrix is 1x1 and its spectrum is its
single entry.
-/

namespace FidSel

/-- Equality of rationals decided through the order (two `<=` tests),
which kernel-evaluates efficiently on literals; used by the concrete
evaluations below. -/
instance decEqRatFast : DecidableEq ℚ := fun a b =>
  if h1 : a ≤ b then
    if h2 : b ≤ a then isTrue (le_antisymm h1 h2)
    else isFalse (fun he => h2 (le_of_eq he.symm))
  else isFalse (fun he => h1 (le_of_eq he))

/-- Exact-value model of a Python float score: a rational, `+inf`, `-inf`
or NaN. -/
inductive FScore where
  | fin : ℚ → FScore
  | pinf : FScore
  | ninf : FScore
  | nan : FScore
deriving Repr

namespace FScore

/-- IEEE `<=` on score values: any comparison involving NaN is false. -/
def le : FScore → FScore → Bool
  | fin a, fin b => a ≤ b
  | fin _, pinf => true
  | fin _, ninf => false
  | pinf, pinf => true
  | pinf, fin _ => false
  | pinf, ninf => false
  | ninf, nan => false
  | ninf, _ => true
  | nan, _ => false
  | _, nan => false

/-- IEEE `<` on score values: any comparison involving NaN is false. -/
def lt : FScore → FScore → Bool
  | fin a, fin b => a < b
  | fin _, pinf => true
  | fin _, ninf => false
  | pinf, _ => false
  | ninf, nan => false
  | ninf, ninf => false
  | ninf, _ => true
  | nan, _ => false
  | _, nan => false

/-- IEEE addition. -/
def add : FScore → FScore → FScore
  | fin a, fin b => fin (a + b)
  | fin _, pinf => pinf
  | fin _, ninf => ninf
  | pinf, fin _ => pinf
  | pinf, pinf => pinf
  | pinf, ninf => nan
  | ninf, fin _ => ninf
  | ninf, pinf => nan
  | ninf, ninf => ninf
  | nan, _ => nan
  | _, nan => nan

/-- IEEE negation. -/
def neg : FScore → FScore
  | fin a => fin (-a)
  | pinf => ninf
  | ninf => pinf
  | nan => nan

/-- IEEE subtraction. -/
def sub (a b : FScore) : FScore := add a (neg b)

/-- IEEE absolute value. -/
def fabs : FScore → FScore
  | fin a => fin |a|
  | pinf => pinf
  | ninf => pinf
  | nan => nan

/-- Multiplication by a natural number (`numFids * aggregate` in the
source); IEEE: `0 * inf` and `0 * (-inf)` are NaN. -/
def scaleNat (k : ℕ) : FScore → FScore
  | fin a => fin (k * a)
  | pinf => if k = 0 then nan else pinf
  | ninf => if k = 0 then nan else ninf
  | nan => nan

/-- Multiplication by a rational (`score * slackFrac` in the source). -/
def mulQ : FScore → ℚ → FScore
  | fin a, q => fin (a * q)
  | pinf, q => if q = 0 then nan else if 0 < q then pinf else ninf
  | ninf, q => if q = 0 then nan else if 0 < q then ninf else pinf
  | nan, _ => nan

/-- `isinf` as in numpy: true exactly on the two infinities. -/
def isinf : FScore → Bool
  | pinf => true
  | ninf => true
  | _ => false

/-- Structural equality of score values (unlike `le`, this is the
equality of the model values, with NaN equal to itself). -/
def beq : FScore → FScore → Bool
  | fin a, fin b => a ≤ b && b ≤ a
  | pinf, pinf => true
  | ninf, ninf => true
  | nan, nan => true
  | _, _ => false

end FScore

instance instDecidableEqFScore : DecidableEq FScore := fun a b =>
  decidable_of_iff (FScore.beq a b = true) (by
    cases a <;> cases b <;>
      first
      | (simp only [FScore.beq, Bool.and_eq_true, decide_eq_true_eq,
          FScore.fin.injEq]
         exact le_antisymm_iff.symm)
      | simp [FScore.beq])

/-- numpy reciprocal of an exact eigenvalue: `1./0.` is `+inf`. -/
def recipQ (x : ℚ) : FScore := if x = 0 then FScore.pinf else FScore.fin x⁻¹

/-- Sum of a list of score values (numpy `sum`). -/
def sumF (l : List FScore) : FScore := l.foldr FScore.add (FScore.fin 0)

/-- Minimum of a list of rationals; the empty case is unreachable in the
source (spectra of d-by-d Gram matrices are nonempty). -/
def minQ : List ℚ → ℚ
  | [] => 0
  | h :: t => t.foldl min h

/-- The two objective modes accepted by `scoreFunc`. -/
inductive ScoreFunc where
  | all : ScoreFunc
  | worst : ScoreFunc
deriving DecidableEq, Repr

/-- Modelled from the spec: `scoring.list_score` (the `scoring` module is
not part of the provided sources).  Per spec 4.2: `all` is the sum of
reciprocals of all eigenvalues (an eigenvalue of 0 contributing `+inf`),
`worst` the reciprocal of the smallest eigenvalue. -/
def listScore (spectrum : List ℚ) : ScoreFunc → FScore
  | .all => sumF (spectrum.map recipQ)
  | .worst => recipQ (minQ spectrum)

/-- The score computed by `test_fiducial_list` (lines 256-265), given the
spectrum of the full score matrix and the number `numFids` of fiducials:
`numFids * list_score(abs(spectrum), scoreFunc)`. -/
def tflScore (spectrum : List ℚ) (numFids : ℕ) (sf : ScoreFunc) : FScore :=
  FScore.scaleNat numFids (listScore (spectrum.map (fun x => |x|)) sf)

/-- The boolean returned by `test_fiducial_list` (lines 267-270):
`False` when `score <= 0 or isinf(score) or score > threshold`, else
`True`; all comparisons are IEEE comparisons. -/
def tflResult (score : FScore) (threshold : ℚ) : Bool :=
  !(FScore.le score (FScore.fin 0) || score.isinf
    || FScore.lt (FScore.fin threshold) score)

/-! ### The scalar (state-dimension 1) instantiation

`make_prep_mxs` (lines 114-148) builds, for every preparation vector rho,
the d-by-m matrix whose column j is `product(fid_j) . rho`.  At d = 1 the
model's `product` assigns each fiducial a 1x1 matrix `[[g j]]` and each
preparation is a 1-vector `[r p]`, so each channel matrix is the single
row `[g j * r p for j]`.  The Gram matrix of the selected columns is the
1x1 matrix whose entry is the sum of squares of the selected entries, and
the spectrum returned by `eigvalsh` on a 1x1 symmetric matrix is exactly
its single entry. -/

/-- Column `j` of the d=1 channel matrix for preparation scalar `rp` is
`g j * rp` (source line 145 specialised to dimension 1). -/
def prepMats1 (g r : List ℚ) : List (List ℚ) :=
  r.map (fun rp => g.map (fun gj => gj * rp))

/-- The columns of one channel row selected by a weight vector
(source line 499: `fidArray[:, wtsLoc]`). -/
def selectCols (row : List ℚ) (w : List Bool) : List ℚ :=
  ((row.zip w).filterMap (fun p => if p.2 then some p.1 else none))

/-- Sum of squares of a list of rationals. -/
def sumSq (l : List ℚ) : ℚ := (l.map (fun x => x * x)).sum

/-- The single entry of the 1x1 Gram matrix `scoreMx . scoreMx^T`
(source line 501) of the selected columns, at dimension 1. -/
def gram1 (mats : List (List ℚ)) (w : List Bool) : ℚ :=
  (mats.map (fun row => sumSq (selectCols row w))).sum

/-- Spectrum of the 1x1 Gram matrix: its single entry. -/
def spec1 (mats : List (List ℚ)) (w : List Bool) : List ℚ :=
  [gram1 mats w]

/-- The internal `compute_score` closure of
`optimize_integer_fiducials_slack` (lines 486-510), at the level of the
spectrum oracle `specOf` (the spectrum `eigvalsh` returns for the Gram
matrix of the columns selected by `w`): if `forceEmpty` is set and the
first weight is not 1, the sentinel `forceEmptyScore`; otherwise
`popcount(w) * list_score(spectrum, scoreFunc)` — with no `abs`, unlike
`test_fiducial_list` — clamped to `1e10` when `<= 0` or infinite. -/
def computeScoreG (specOf : List Bool → List ℚ) (forceEmpty : Bool)
    (forceEmptyScore : ℚ) (sf : ScoreFunc) (w : List Bool) : FScore :=
  if forceEmpty ∧ (w.take 1).count true ≠ 1 then FScore.fin forceEmptyScore
  else
    let raw := FScore.scaleNat (w.count true) (listScore (specOf w) sf)
    if FScore.le raw (FScore.fin 0) || raw.isinf then FScore.fin (10 ^ 10)
    else raw

/-- `test_fiducial_list` at dimension 1 (spectrum = `spec1` of the full
candidate list, `numFids` = its length). -/
def testFiducialList1 (g r : List ℚ) (sf : ScoreFunc) (threshold : ℚ) : Bool :=
  tflResult
    (tflScore (spec1 (prepMats1 g r) (List.replicate g.length true)) g.length sf)
    threshold

/-! ### `generate_fiducials` keyword-argument handling (lines 57-68)

`algorithm_kwargs` defaults to a Python dict literal `{}` that is created
once and shared across every call made without an explicit argument, and
the function mutates it in place.  We model the dict by a record of
optional entries and the mutation by the pure update below; the state of
the shared default dict after n calls is the n-fold iterate. -/

/-- The entries of `algorithm_kwargs` that `generate_fiducials`
reads or writes. -/
structure FidAlgKwargs where
  slackFrac : Option ℚ
  fixedSlack : Option ℚ
  fidList : Option ℕ
  verbosity : Option ℕ
deriving DecidableEq, Repr

/-- The in-place update `generate_fiducials` performs on
`algorithm_kwargs` (lines 57-68): insert `slackFrac = 1.0` when neither
slack key is present, then insert the defaults for `fidList` (the
enumerated candidate list, an opaque token here) and `verbosity` when
absent. -/
def updateAlgKwargs (avail verb : ℕ) (d : FidAlgKwargs) : FidAlgKwargs :=
  let d1 := if d.slackFrac = none ∧ d.fixedSlack = none then
    ⟨some 1, d.fixedSlack, d.fidList, d.verbosity⟩ else d
  let d2 := if d1.fidList = none then
    ⟨d1.slackFrac, d1.fixedSlack, some avail, d1.verbosity⟩ else d1
  if d2.verbosity = none then
    ⟨d2.slackFrac, d2.fixedSlack, d2.fidList, some verb⟩ else d2

/-! ### The slack local search (`optimize_integer_fiducials_slack`) -/

/-- Python truthiness of an optional float argument: `None` and `0.0`
are falsy (`bool(x)` in the source's `xor`, line 111). -/
def truthy : Option ℚ → Bool
  | none => false
  | some q => decide (q ≠ 0)

/-- The source's `xor` (lines 94-112) applied to the two slack options:
true iff exactly one argument is truthy. -/
def xorTruthy (a b : Option ℚ) : Bool :=
  ((if truthy a then 1 else 0) + (if truthy b then 1 else 0)) == 1

/-- The two slack options of the optimizer. -/
structure SlackCfg where
  fixedSlack : Option ℚ
  slackFrac : Option ℚ
deriving DecidableEq, Repr

/-- The `slack` computed in the relax phase (lines 619-623):
`score + fixedSlack` when `fixedSlack` is truthy, else
`score * slackFrac` when `slackFrac` is truthy.  The remaining case is
unreachable behind the `xor` entry check. -/
def slackOf (cfg : SlackCfg) (score : FScore) : FScore :=
  if truthy cfg.fixedSlack then FScore.add score (FScore.fin (cfg.fixedSlack.getD 0))
  else if truthy cfg.slackFrac then FScore.mulQ score (cfg.slackFrac.getD 0)
  else FScore.nan

/-- The inflated acceptance threshold after the relax step
(line 631, `score += slack`). -/
def inflateStep (cfg : SlackCfg) (score : FScore) : FScore :=
  FScore.add score (slackOf cfg score)

/-- The mutable state of the search loop: current weight vector, current
score, its popcount (`L1`), the `lessWeightOnly` flag, and a count of
accepted moves (for stating convergence properties). -/
structure OptState where
  w : List Bool
  score : FScore
  L1 : ℕ
  lwo : Bool
  acc : ℕ
deriving DecidableEq, Repr

/-- Hamming-distance-1 neighbor: toggle bit `i` (lines 573-577). -/
def flipAt (w : List Bool) (i : ℕ) : List Bool := w.set i (!(w.getD i false))

/-- Popcount of a 0/1 weight vector (`sum(weights)` in the source). -/
def popc (w : List Bool) : ℕ := w.count true

/-- One generic first-improvement pass over neighbor indices: `accept`
returns the updated state when the neighbor at index `i` is taken.  The
scan keeps iterating over the neighbors of the iteration's original
vector after each acceptance, exactly as the source's `for neighbor in
get_neighbors(weights)` does (the generator is bound to the original
array). -/
def stepGo (accept : OptState → ℕ → Option OptState) :
    List ℕ → OptState → Bool → OptState × Bool
  | [], st, found => (st, found)
  | i :: rest, st, found =>
    match accept st i with
    | some st2 => stepGo accept rest st2 true
    | none => stepGo accept rest st found

/-- Acceptance test of the main scan (lines 597-612): move to the
neighbor when its score is `<=` the current score and either its
popcount is smaller or `lessWeightOnly` is false. -/
def scanAccept (f : List Bool → FScore) (orig : List Bool)
    (st : OptState) (i : ℕ) : Option OptState :=
  if FScore.le (f (flipAt orig i)) st.score
      ∧ (popc (flipAt orig i) < st.L1 ∨ st.lwo = false) then
    some ⟨flipAt orig i, f (flipAt orig i), popc (flipAt orig i),
      st.lwo, st.acc + 1⟩
  else none

/-- Acceptance test of the cached re-scan of the relax phase
(lines 633-640): strictly smaller popcount and cached score strictly
below the inflated threshold.  Every neighbor of the current vector was
cached by the main scan of the same iteration, so the cache lookup always
yields the score function's value. -/
def relaxAccept (f : List Bool → FScore) (orig : List Bool)
    (st : OptState) (i : ℕ) : Option OptState :=
  if popc (flipAt orig i) < st.L1
      ∧ FScore.lt (f (flipAt orig i)) st.score then
    some ⟨flipAt orig i, f (flipAt orig i), popc (flipAt orig i),
      st.lwo, st.acc + 1⟩
  else none

/-- Full main scan of one iteration over all `m` neighbors. -/
def scanAll (f : List Bool → FScore) (st : OptState) : OptState × Bool :=
  stepGo (scanAccept f st.w) (List.range st.w.length) st false

/-- Full relax-phase re-scan over all `m` neighbors. -/
def relaxScanAll (f : List Bool → FScore) (st : OptState) : OptState × Bool :=
  stepGo (relaxAccept f st.w) (List.range st.w.length) st false

/-- Result of the search loop: the final state plus whether the loop
ended at a stationary point (`True`) or by exhausting `maxIter`
(`False`); `crash` models a failing `assert(slack > 0)` (line 624). -/
inductive LoopRes where
  | out : OptState → Bool → LoopRes
  | crash : LoopRes
deriving DecidableEq, Repr

/-- The state entering the relax re-scan (lines 615-631): when a full
scan accepted nothing, the state is unchanged, `lessWeightOnly` is set
permanently and the score is inflated by the slack. -/
def relaxSt (cfg : SlackCfg) (st : OptState) : OptState :=
  ⟨st.w, inflateStep cfg st.score, st.L1, true, st.acc⟩

/-- The main loop (lines 590-648), with `maxIter` as fuel.  Each
iteration runs the first-improvement scan; if nothing was accepted the
state is unchanged and the relax phase runs: set `lessWeightOnly`,
compute the slack from the current score, assert it positive, inflate
the score and re-scan (cached neighbors only); if that also accepts
nothing the loop breaks at a stationary point. -/
def loopGo (f : List Bool → FScore) (cfg : SlackCfg) :
    ℕ → OptState → LoopRes
  | 0, st => .out st false
  | fuel + 1, st =>
    if (scanAll f st).2 then loopGo f cfg fuel (scanAll f st).1
    else
      if FScore.lt (FScore.fin 0) (slackOf cfg st.score) then
        if (relaxScanAll f (relaxSt cfg st)).2 then
          loopGo f cfg fuel (relaxScanAll f (relaxSt cfg st)).1
        else .out (relaxScanAll f (relaxSt cfg st)).1 true
      else .crash

/-- Outcome of `optimize_integer_fiducials_slack` on the slack path:
the `ValueError` of the `xor` entry check, the `None` return after a
failed initial completeness test, or the final state together with the
stationarity flag and whether the closing message was the warning one. -/
inductive OptOutcome where
  | configError : OptOutcome
  | aborted : OptOutcome
  | ok : OptState → Bool → Bool → OptOutcome
  | crashed : OptOutcome
deriving DecidableEq, Repr

/-- Initialization of the search state (lines 579-586): the coerced
`initialWeights` when given — with `lessWeightOnly` left `False` — else
all-ones with `lessWeightOnly = True`; the score is `compute_score` of
the start vector, the accepted-move counter starts at zero. -/
def initState (f : List Bool → FScore) (m : ℕ)
    (init : Option (List Bool)) : OptState :=
  match init with
  | some v => ⟨v, f v, popc v, false, 0⟩
  | none => ⟨List.replicate m true, f (List.replicate m true),
      popc (List.replicate m true), true, 0⟩

/-- `optimize_integer_fiducials_slack` (lines 450-670, slack path,
`fixedNum = None`), over a score oracle `f` (the `compute_score`
closure) and the initial-test score `tflSc` (the score
`test_fiducial_list` computes for the full candidate list): the `xor`
check (452), the initial completeness gate (455-464), initialization,
the loop, and the closing success/warning message (662-665), which
tests `initial_test[0]` — not the final subset. -/
def optimizeSlack (f : List Bool → FScore) (tflSc : FScore) (threshold : ℚ)
    (cfg : SlackCfg) (m maxIter : ℕ) (init : Option (List Bool)) : OptOutcome :=
  if !(xorTruthy cfg.fixedSlack cfg.slackFrac) then .configError
  else if !(tflResult tflSc threshold) then .aborted
  else
    match loopGo f cfg maxIter (initState f m init) with
    | .crash => .crashed
    | .out st conv => .ok st conv (!(tflResult tflSc threshold))

/-! ### `build_bitvec_mx` (lines 275-339) and the `fixedNum` branch
(lines 512-568)

`build_mx` recurses on the Python int `i`, which the source never guards
against going below zero, so we embed it with explicit fuel: `none`
means the recursion is still running when the fuel runs out (for every
fuel), i.e. the source never terminates. -/

/-- Python `range(lo, hi)` over integers. -/
def intRange (lo hi : ℤ) : List ℤ :=
  (List.range (hi - lo).toNat).map (fun j : ℕ => lo + (j : ℤ))

/-- Accumulate the rows produced for each loop index, propagating a
still-running (`none`) recursive call. -/
def optFold (step : ℤ → Option (List (List ℤ))) (l : List ℤ) :
    Option (List (List ℤ)) :=
  l.foldl
    (fun acc loc =>
      match acc with
      | none => none
      | some rows =>
        match step loc with
        | none => none
        | some r2 => some (rows ++ r2))
    (some [])

/-- The recursive `build_mx` helper (lines 296-333): at `i = 0` it emits
the row given by the accumulated bit locations, otherwise it loops
`bit_loc` over `range(1 + last_bit_loc, diff + (k - i) + 1)` and recurses
with `i - 1`.  Rows are produced in the source's counter order. -/
def buildMx (k diff : ℤ) : ℕ → ℤ → List ℤ → Option (List (List ℤ))
  | 0, _, _ => none
  | fuel + 1, i, prev =>
    if i = 0 then some [prev]
    else
      optFold (fun loc => buildMx k diff fuel (i - 1) (prev ++ [loc]))
        (intRange (1 + prev.getLastD 0) (diff + (k - i) + 1))

/-- `build_bitvec_mx(n, k)` as the list of bit-location rows (lines
335-337): `bit_loc_0` ranges over `range(diff + 1)` and `build_mx` is
seeded with `(bit_loc_0,)` and `i = k - 1`. -/
def buildBitvecRows (n k : ℤ) (fuel : ℕ) : Option (List (List ℤ)) :=
  optFold (fun b0 => buildMx k (n - k) fuel (k - 1) [b0])
    (intRange 0 (n - k + 1))

/-- A row of bit locations as the indicator vector of length `n`
(line 321, `bitVecMx[counter][[previous_bit_locs]] = 1`). -/
def toIndicator (n : ℕ) (locs : List ℤ) : List Bool :=
  (List.range n).map (fun j => locs.contains (j : ℤ))

/-- The weight vectors enumerated by the `fixedNum` branch (lines
512-529): when `forceEmpty` is set, vectors of weight `fixedNum - 1`
over `m - 1` free bits with the forced first bit re-attached, else
vectors of weight `fixedNum` over all `m` bits. -/
def fixedNumRows (m fixedNum : ℕ) (forceEmpty : Bool) (fuel : ℕ) :
    Option (List (List Bool)) :=
  if forceEmpty then
    (buildBitvecRows ((m : ℤ) - 1) ((fixedNum : ℤ) - 1) fuel).map
      (fun rows => rows.map (fun locs => true :: toIndicator (m - 1) locs))
  else
    (buildBitvecRows (m : ℤ) (fixedNum : ℤ) fuel).map
      (fun rows => rows.map (fun locs => toIndicator m locs))

/-- Total operation count of the selected sequences
(lines 539-548: `sum(len(i) for i in tempFidList)`), from the list of
sequence lengths of the candidate list. -/
def totalLen (lens : List ℕ) (w : List Bool) : ℕ :=
  ((lens.zip w).filterMap (fun p => if p.2 then some p.1 else none)).sum

/-- One step of the `fixedNum` sweep (lines 533-557): against the running
best, a candidate whose score is within `1e-8` replaces it exactly when
its selected sequences have strictly smaller total length, and otherwise
it replaces it when its score is strictly smaller.  `best_score` starts
at `+inf` with an empty `best_weights`. -/
def fnStep (f : List Bool → FScore) (lens : List ℕ)
    (best : FScore × List Bool) (wr : List Bool) : FScore × List Bool :=
  let t := f wr
  if FScore.lt (FScore.fabs (FScore.sub t best.1)) (FScore.fin (1 / 100000000)) then
    if totalLen lens wr < totalLen lens best.2 then (t, wr) else best
  else if FScore.lt t best.1 then (t, wr) else best

/-- The full `fixedNum` sweep: fold `fnStep` over the enumerated weight
vectors in order, starting from `(inf, [])` (lines 530-557). -/
def fixedNumFold (f : List Bool → FScore) (lens : List ℕ)
    (rows : List (List Bool)) : FScore × List Bool :=
  rows.foldl (fnStep f lens) (FScore.pinf, [])

/-! ### Concrete model instances used by the claim-level evaluations -/

/-- Invariant of the loop states: the stored score and popcount are
those of the stored weight vector. -/
def StInv (f : List Bool → FScore) (st : OptState) : Prop :=
  st.score = f st.w ∧ st.L1 = popc st.w

/-- No neighbor with strictly smaller popcount has score `<=` the
current raw score: the failure condition of the main scan at a
stationary point (shrinking neighbors are acceptable under every value
of `lessWeightOnly`, so their rejection is independent of it). -/
def NoShrinkImprove (f : List Bool → FScore) (w : List Bool) : Prop :=
  ∀ i < w.length, popc (flipAt w i) < popc w →
    FScore.le (f (flipAt w i)) (f w) = false

/-- No neighbor with strictly smaller popcount has score strictly below
the inflated threshold: the failure condition of the relax re-scan at a
stationary point. -/
def NoRelaxMove (f : List Bool → FScore) (cfg : SlackCfg) (w : List Bool) : Prop :=
  ∀ i < w.length, popc (flipAt w i) < popc w →
    FScore.lt (f (flipAt w i)) (inflateStep cfg (f w)) = false

/-- No neighbor with larger (or equal) popcount has score `<=` the
current raw score.  This is **not** implied by stationarity when
`lessWeightOnly` was true, and is the extra condition the amended C4
needs. -/
def NoGrowMove (f : List Bool → FScore) (w : List Bool) : Prop :=
  ∀ i < w.length, ¬ popc (flipAt w i) < popc w →
    FScore.le (f (flipAt w i)) (f w) = false

/-- d=1 gateset for the final-message run: two fiducials with responses
1 and 2 on the single preparation `[1]`. -/
def c3f : List Bool → FScore :=
  computeScoreG (spec1 (prepMats1 [1, 2] [1])) true (10 ^ 100) ScoreFunc.all

/-- The initial-test score of that run: the full-list score `2/5`. -/
def c3tfl : FScore :=
  tflScore (spec1 (prepMats1 [1, 2] [1]) (List.replicate 2 true)) 2 ScoreFunc.all

/-- Score landscape over two fiducials with a score-preserving superset
neighbor: the converged state `[false, true]` and the full set both
score 5. -/
def c4f : List Bool → FScore
  | [true, true] => FScore.fin 5
  | [false, true] => FScore.fin 5
  | [true, false] => FScore.fin 12
  | [false, false] => FScore.fin 100
  | _ => FScore.fin 0

/-- One-fiducial score landscape whose converged state has no
score-preserving superset neighbor. -/
def c4wf : List Bool → FScore
  | [true] => FScore.fin 1
  | [false] => FScore.fin 100
  | _ => FScore.fin 0

/-- Perturbation `4e-9`, half the `1e-8` tie window. -/
def c9eps : ℚ := 1 / 250000000

/-- d=1 responses giving three singleton scores `1`, `(1+eps)^2` and
`(1+2*eps)^2`: consecutive scores are within the tie window, the
extremes are not. -/
def c9g : List ℚ := [1, 1 / (1 + c9eps), 1 / (1 + 2 * c9eps)]

/-- The `compute_score` closure for the `c9g` gateset
(`forceEmpty = False`). -/
def c9f : List Bool → FScore :=
  computeScoreG (spec1 (prepMats1 c9g [1])) false (10 ^ 100) ScoreFunc.all

/-- d=1 gateset with a zero-response third fiducial. -/
def c8f : List Bool → FScore :=
  computeScoreG (spec1 (prepMats1 [1, 1, 0] [1])) false (10 ^ 100) ScoreFunc.all

set_option maxRecDepth 100000

/-- C1: after a fruitless neighbor scan, the code computes
`slack = score + fixedSlack` (line 621) and then `score += slack`
(line 631), so with `fixedSlack` configured the acceptance threshold
becomes `2*s + fixedSlack`, not the `s + fixedSlack` the claim (and the
function docstring) states: at `s = 10`, `fixedSlack = 1/10` the
inflated threshold is `201/10` whereas the claim predicts `101/10`.
The multiplicative half of the claim is what the code does:
`slack = score * slackFrac` gives threshold `s * (1 + slackFrac)`. -/
theorem c1_relax_inflation :
    inflateStep ⟨some (1 / 10), none⟩ (FScore.fin 10) = FScore.fin (201 / 10)
    ∧ (201 : ℚ) / 10 ≠ 10 + 1 / 10
    ∧ inflateStep ⟨none, some 2⟩ (FScore.fin (2 / 5))
        = FScore.fin ((2 / 5) * (1 + 2)) := by
  with_unfolding_all decide

/-- C3: a run in the d=1 model (responses `[1, 2]`, preparation `[1]`,
`forceEmpty`, `slackFrac = 2`, threshold `2/5`): the initial test passes
(full-list score `2/5`), the search converges to the subset `{0}` whose
raw score `1` exceeds the threshold, yet the emitted closing message is
the success one (`warned = false`), because line 662 re-tests
`initial_test[0]` — always true at that point — instead of testing the
final subset; the selected sublist is still returned. -/
theorem c3_final_message :
    optimizeSlack c3f c3tfl (2 / 5) ⟨none, some 2⟩ 2 100 none
      = OptOutcome.ok ⟨[true, false], FScore.fin 3, 1, true, 1⟩ true false
    ∧ c3f [true, false] = FScore.fin 1
    ∧ FScore.lt (FScore.fin (2 / 5)) (FScore.fin 1) = true := by
  with_unfolding_all decide

/-- C2 counterexample: a d=1 gateset whose single fiducial has zero
response.  On the all-ones vector the optimizer's `compute_score` clamps
the infinite raw score to the sentinel `1e10` (line 506-507), while
`test_fiducial_list` reports the raw infinite score — the two scores
differ, refuting the claimed equality for every gateset. -/
theorem c2_counterexample :
    computeScoreG (spec1 (prepMats1 [0] [1])) true (10 ^ 100) ScoreFunc.all
        (List.replicate 1 true)
      = FScore.fin (10 ^ 10)
    ∧ tflScore (spec1 (prepMats1 [0] [1]) (List.replicate 1 true)) 1 ScoreFunc.all
        = FScore.pinf
    ∧ FScore.fin (10 ^ 10) ≠ FScore.pinf := by
  with_unfolding_all decide

/-- C5 counterexample: on the empty candidate list the score is
`0 * inf = NaN`; every IEEE comparison on NaN is false, so the rejection
test at line 267 does not fire and `test_fiducial_list` returns `True`,
although the claim requires `False` for a non-finite score. -/
theorem c5_counterexample :
    testFiducialList1 [] [1] ScoreFunc.all 1000000 = true
    ∧ tflScore (spec1 (prepMats1 [] [1]) (List.replicate 0 true)) 0 ScoreFunc.all
        = FScore.nan := by
  with_unfolding_all decide

/-- C5 amended: `test_fiducial_list` returns `True` iff the score is a
finite value `q` with `0 < q <= threshold`, **or** the score is NaN —
every IEEE comparison on NaN is false, so the rejection test at line 267
passes NaN through.  For finite and infinite scores the claim is as
stated; the NaN case (realised by the empty candidate list) is the sole
divergence. -/
theorem c5_amended (score : FScore) (T : ℚ) :
    tflResult score T = true ↔
      ((∃ q, score = FScore.fin q ∧ 0 < q ∧ q ≤ T) ∨ score = FScore.nan) := by
  cases score <;>
    simp [tflResult, FScore.le, FScore.lt, FScore.isinf, not_le, not_lt, and_comm]

/-- C7 amended: the configuration `ValueError` is raised iff the number
of *truthy* slack arguments (non-`None` and nonzero — `xor` at line 111
applies `bool(...)`) differs from one; a supplied zero counts as absent.
The check precedes the initial scoring: the outcome `configError` is
determined by the slack configuration alone, for every score oracle,
initial-test score, threshold and starting point. -/
theorem c7_amended (f : List Bool → FScore) (tflSc : FScore) (T : ℚ)
    (cfg : SlackCfg) (m maxIter : ℕ) (init : Option (List Bool)) :
    (optimizeSlack f tflSc T cfg m maxIter init = OptOutcome.configError)
      ↔ xorTruthy cfg.fixedSlack cfg.slackFrac = false := by
  cases hx : xorTruthy cfg.fixedSlack cfg.slackFrac
  · simp [optimizeSlack, hx]
  · refine iff_of_false (fun h => ?_) (by simp)
    unfold optimizeSlack at h
    rw [hx] at h
    simp only [Bool.not_true] at h
    rw [if_neg (by simp)] at h
    split at h
    · exact OptOutcome.noConfusion h
    · split at h <;> exact OptOutcome.noConfusion h

/-- C7 counterexample: `fixedSlack = 0.0` supplied, `slackFrac` absent —
exactly one of the two options is supplied, so the claim says no error;
but `xor` (line 111) tests Python truthiness, `bool(0.0)` is false, and
the optimizer raises the configuration `ValueError`. -/
theorem c7_counterexample :
    optimizeSlack (fun _ => FScore.fin 1) (FScore.fin 1) 1 ⟨some 0, none⟩ 1 1 none
      = OptOutcome.configError
    ∧ (Option.some (0 : ℚ)).isSome = true
    ∧ (Option.none (α := ℚ)).isSome = false := by
  with_unfolding_all decide

/-- C8 counterexample: d=1 gateset with responses `[1, 1, 0]` under
`all` aggregation: clearing bit 2 (the zero-response fiducial) drops the
score from `3 * (1/2) = 3/2` to `2 * (1/2) = 1`, a strict decrease —
the popcount factor shrinks while the spectrum is unchanged — refuting
the claim that removal never strictly decreases the score. -/
theorem c8_counterexample :
    c8f [true, true, true] = FScore.fin (3 / 2)
    ∧ c8f [true, true, false] = FScore.fin 1
    ∧ (1 : ℚ) < 3 / 2 := by
  with_unfolding_all decide

/-- C4 counterexample: with the score landscape `c4f` (scores: full set
5, `{1}` 5, `{0}` 12, `{}` 100) and `fixedSlack = 1`, the search started
from all-ones converges (stationary) at `[false, true]` after one
accepted move; re-running with `initialWeights = [false, true]` resets
`lessWeightOnly` to false (line 579-583), so the equal-scoring superset
`[true, true]` is accepted, the run oscillates, performs 2 accepted
moves and exhausts `maxIter` (converged = false) — not the claimed
immediate convergence with zero accepted moves. -/
theorem c4_counterexample :
    optimizeSlack c4f (FScore.fin 1) 1 ⟨some 1, none⟩ 2 2 none
      = OptOutcome.ok ⟨[false, true], FScore.fin 11, 1, true, 1⟩ true false
    ∧ optimizeSlack c4f (FScore.fin 1) 1 ⟨some 1, none⟩ 2 2 (some [false, true])
      = OptOutcome.ok ⟨[false, true], FScore.fin 5, 1, false, 2⟩ false false := by
  with_unfolding_all decide

/-- C9 counterexample: `fixedNum = 1` over three candidates with scores
`1`, `(1+eps)^2`, `(1+2*eps)^2` (`eps = 4e-9`) and sequence lengths
`3, 2, 1`.  Consecutive scores lie within the `1e-8` tie window, so the
sweep switches twice on the length tie-break and returns the third
candidate — whose score exceeds the true minimum `1` by more than
`1e-8`, refuting the claim that a minimum-score subset (up to ties) is
returned. -/
theorem c9_counterexample :
    fixedNumRows 3 1 false 100
      = some [[true, false, false], [false, true, false], [false, false, true]]
    ∧ fixedNumFold c9f [3, 2, 1]
        [[true, false, false], [false, true, false], [false, false, true]]
      = (FScore.fin ((1 + 2 * c9eps) ^ 2), [false, false, true])
    ∧ c9f [true, false, false] = FScore.fin 1
    ∧ 1 + 1 / 100000000 < (1 + 2 * c9eps) ^ 2 := by
  with_unfolding_all decide

theorem map_abs_of_nonneg (l : List ℚ) (h : ∀ x ∈ l, 0 ≤ x) :
    l.map (fun x => |x|) = l := by
  induction l with
  | nil => rfl
  | cons a t ih =>
    simp only [List.map_cons, List.cons.injEq]
    exact ⟨abs_of_nonneg (h a (by simp)),
      ih (fun x hx => h x (by simp [hx]))⟩

/-- C2 amended: the optimizer's `compute_score` on the all-ones vector
and `test_fiducial_list` on the full candidate list agree whenever every
eigenvalue of the common full-list spectrum is nonnegative (true of
exact Gram spectra, making `abs` at line 265 a no-op) and the common raw
score is neither `<= 0` nor infinite.  When the raw score is non-positive
or infinite, `compute_score` clamps it to the sentinel `1e10`
(lines 506-507) while `test_fiducial_list` reports the raw score, and the
two differ. -/
theorem c2_amended (spec : List ℚ) (m : ℕ) (sf : ScoreFunc) (fes : ℚ)
    (hm : 0 < m) (hpos : ∀ x ∈ spec, 0 ≤ x)
    (hp : FScore.le (FScore.scaleNat m (listScore spec sf)) (FScore.fin 0) = false)
    (hi : (FScore.scaleNat m (listScore spec sf)).isinf = false) :
    computeScoreG (fun _ => spec) true fes sf (List.replicate m true)
      = tflScore spec m sf := by
  obtain ⟨k, rfl⟩ : ∃ k, m = k + 1 := ⟨m - 1, (Nat.succ_pred_eq_of_pos hm).symm⟩
  unfold computeScoreG tflScore
  rw [map_abs_of_nonneg spec hpos]
  have h1 : ((List.replicate (k + 1) true).take 1).count true = 1 := by
    simp [List.replicate_succ]
  have h2 : (List.replicate (k + 1) true).count true = k + 1 := by simp
  rw [if_neg (by simp [h1])]
  simp only [h2, hp, hi, Bool.or_self, Bool.false_eq_true, if_false]

/-- Witness for C2 amended at the spectrum `[1, 2]`, `m = 2`, `all`
aggregation. -/
theorem c2_amended_witness :
    (0 < 2 ∧ (∀ x ∈ ([1, 2] : List ℚ), 0 ≤ x)
      ∧ FScore.le (FScore.scaleNat 2 (listScore [1, 2] ScoreFunc.all))
          (FScore.fin 0) = false
      ∧ (FScore.scaleNat 2 (listScore [1, 2] ScoreFunc.all)).isinf = false)
    ∧ computeScoreG (fun _ => [1, 2]) true 1 ScoreFunc.all (List.replicate 2 true)
        = tflScore [1, 2] 2 ScoreFunc.all :=
  ⟨⟨by decide, by with_unfolding_all decide, by with_unfolding_all decide,
    by with_unfolding_all decide⟩,
   c2_amended [1, 2] 2 ScoreFunc.all 1 (by decide) (by with_unfolding_all decide)
     (by with_unfolding_all decide) (by with_unfolding_all decide)⟩

theorem sumSq_cons (x : ℚ) (l : List ℚ) : sumSq (x :: l) = x * x + sumSq l := by
  simp [sumSq]

theorem sumSq_nonneg (l : List ℚ) : 0 ≤ sumSq l := by
  apply List.sum_nonneg
  intro x hx
  obtain ⟨y, _, rfl⟩ := List.mem_map.1 hx
  exact mul_self_nonneg y

theorem selectCols_cons (x : ℚ) (xs : List ℚ) (b : Bool) (t : List Bool) :
    selectCols (x :: xs) (b :: t)
      = if b then x :: selectCols xs t else selectCols xs t := by
  cases b <;> simp [selectCols]

theorem sumSq_selectCols_set_false_le (w : List Bool) :
    ∀ (row : List ℚ) (i : ℕ),
    sumSq (selectCols row (w.set i false)) ≤ sumSq (selectCols row w) := by
  induction w with
  | nil => intro row i; simp
  | cons b t ih =>
    intro row i
    cases row with
    | nil => simp [selectCols]
    | cons x xs =>
      cases i with
      | zero =>
        rw [List.set_cons_zero, selectCols_cons, selectCols_cons]
        cases b
        · simp
        · simp only [if_true, if_false, Bool.false_eq_true, sumSq_cons]
          exact le_add_of_nonneg_left (mul_self_nonneg x)
      | succ j =>
        rw [List.set_cons_succ, selectCols_cons, selectCols_cons]
        cases b
        · simpa using ih xs j
        · simp only [if_true, sumSq_cons]
          exact add_le_add_left (ih xs j) _

theorem gram1_nonneg (mats : List (List ℚ)) (w : List Bool) :
    0 ≤ gram1 mats w := by
  apply List.sum_nonneg
  intro x hx
  obtain ⟨row, _, rfl⟩ := List.mem_map.1 hx
  exact sumSq_nonneg _

theorem gram1_set_false_le (mats : List (List ℚ)) (w : List Bool) (i : ℕ) :
    gram1 mats (w.set i false) ≤ gram1 mats w := by
  apply List.sum_le_sum
  intro row _
  exact sumSq_selectCols_set_false_le w row i

theorem listScore_single_all (x : ℚ) :
    listScore [x] ScoreFunc.all = recipQ x := by
  by_cases h : x = 0 <;> simp [listScore, sumF, recipQ, h, FScore.add]

theorem recipQ_antitone (a b : ℚ) (ha : 0 ≤ a) (hab : a ≤ b) :
    FScore.le (recipQ b) (recipQ a) = true := by
  by_cases h : a = 0
  · subst h
    by_cases hb : b = 0 <;> simp [recipQ, hb, FScore.le]
  · have ha2 : 0 < a := lt_of_le_of_ne ha (Ne.symm h)
    have hb : b ≠ 0 := ne_of_gt (lt_of_lt_of_le ha2 hab)
    simp only [recipQ, if_neg h, if_neg hb, FScore.le, decide_eq_true_eq]
    exact inv_anti₀ ha2 hab

/-- C8 amended: under `all` aggregation in the dimension-1 model,
clearing a selected bit never decreases the eigenvalue-reciprocal
aggregate `list_score` itself — removing columns only shrinks the Gram
entry, whose reciprocal grows.  The claim as stated fails only because
`compute_score` multiplies the aggregate by the shrinking popcount
(line 503), which can strictly decrease the product (counterexample:
a zero-response fiducial). -/
theorem c8_amended (g r : List ℚ) (w : List Bool) (i : ℕ)
    (_hw : w.getD i false = true) :
    FScore.le (listScore (spec1 (prepMats1 g r) w) ScoreFunc.all)
      (listScore (spec1 (prepMats1 g r) (w.set i false)) ScoreFunc.all)
      = true := by
  unfold spec1
  rw [listScore_single_all, listScore_single_all]
  exact recipQ_antitone _ _ (gram1_nonneg _ _) (gram1_set_false_le _ _ _)

/-- Witness for C8 amended: responses `[1, 1, 0]`, preparation `[1]`,
clearing bit 2 of the all-ones vector. -/
theorem c8_amended_witness :
    ([true, true, true].getD 2 false = true)
    ∧ FScore.le
        (listScore (spec1 (prepMats1 [1, 1, 0] [1]) [true, true, true])
          ScoreFunc.all)
        (listScore (spec1 (prepMats1 [1, 1, 0] [1]) ([true, true, true].set 2 false))
          ScoreFunc.all) = true :=
  ⟨by decide, c8_amended [1, 1, 0] [1] [true, true, true] 2 (by decide)⟩

theorem intRange_cons (lo hi : ℤ) (h : lo < hi) :
    intRange lo hi = lo :: intRange (lo + 1) hi := by
  unfold intRange
  obtain ⟨n, hn⟩ : ∃ n : ℕ, (hi - lo).toNat = n + 1 :=
    ⟨(hi - lo).toNat - 1, by omega⟩
  have h2 : (hi - (lo + 1)).toNat = n := by omega
  rw [hn, h2, List.range_succ_eq_map, List.map_cons, List.map_map]
  refine congrArg₂ List.cons (by simp) ?_
  have hf : ((fun j : ℕ => lo + (j : ℤ)) ∘ Nat.succ)
      = (fun j : ℕ => lo + 1 + (j : ℤ)) := by
    funext j
    simp only [Function.comp_apply]
    push_cast
    ring
  rw [hf]

theorem optFold_go_none (step : ℤ → Option (List (List ℤ))) (l : List ℤ) :
    l.foldl
      (fun acc loc =>
        match acc with
        | none => none
        | some rows =>
          match step loc with
          | none => none
          | some r2 => some (rows ++ r2))
      none = none := by
  induction l with
  | nil => rfl
  | cons x rest ih => exact ih

theorem optFold_cons_none (step : ℤ → Option (List (List ℤ))) (x : ℤ)
    (rest : List ℤ) (h : step x = none) :
    optFold step (x :: rest) = none := by
  unfold optFold
  rw [List.foldl_cons]
  simp only [h]
  exact optFold_go_none step rest

theorem buildMx_neg_no_base (k diff : ℤ) :
    ∀ (fuel : ℕ) (i : ℤ) (prev : List ℤ),
    i < 0 → prev.getLastD 0 ≤ diff + (k - i) - 1 →
    buildMx k diff fuel i prev = none := by
  intro fuel
  induction fuel with
  | zero => intro i prev _ _; rfl
  | succ n ih =>
    intro i prev hi hlast
    unfold buildMx
    rw [if_neg (by omega)]
    rw [intRange_cons _ _ (by omega)]
    apply optFold_cons_none
    apply ih _ _ (by omega)
    rw [List.getLastD_concat]
    omega

/-- C6: `build_bitvec_mx(2, 0)` never terminates: `build_mx` starts at
`i = k - 1 = -1`, the `i == 0` base case is unreachable (i only
decreases) and every level's `range(1 + last, diff + (k - i) + 1)` is
nonempty, so for every fuel bound the recursion is still running — in
Python, a `RecursionError` — whereas the claim (and the matrix the
function itself preallocates with `binom(n, 0) = 1` rows) calls for the
single weight-0 vector. -/
theorem c6_weight_zero_diverges (fuel : ℕ) :
    buildBitvecRows 2 0 fuel = none := by
  unfold buildBitvecRows
  rw [intRange_cons _ _ (by omega)]
  apply optFold_cons_none
  apply buildMx_neg_no_base _ _ _ _ _ (by omega)
  simp

theorem stepGo_found (accept : OptState → ℕ → Option OptState) :
    ∀ (l : List ℕ) (st : OptState), (stepGo accept l st true).2 = true := by
  intro l
  induction l with
  | nil => intro st; rfl
  | cons i rest ih =>
    intro st
    unfold stepGo
    cases h : accept st i with
    | some st2 => exact ih st2
    | none => exact ih st

theorem stepGo_not_found (accept : OptState → ℕ → Option OptState) :
    ∀ (l : List ℕ) (st : OptState),
    (stepGo accept l st false).2 = false →
    (stepGo accept l st false).1 = st ∧ ∀ i ∈ l, accept st i = none := by
  intro l
  induction l with
  | nil => intro st _; exact ⟨rfl, by simp⟩
  | cons i rest ih =>
    intro st h
    unfold stepGo at h ⊢
    cases hacc : accept st i with
    | some st2 =>
      rw [hacc] at h
      exact absurd h (by simp [stepGo_found])
    | none =>
      rw [hacc] at h
      obtain ⟨h1, h2⟩ := ih st h
      refine ⟨h1, fun j hj => ?_⟩
      rcases List.mem_cons.1 hj with rfl | hj2
      · exact hacc
      · exact h2 j hj2

theorem stepGo_all_none (accept : OptState → ℕ → Option OptState) :
    ∀ (l : List ℕ) (st : OptState),
    (∀ i ∈ l, accept st i = none) →
    stepGo accept l st false = (st, false) := by
  intro l
  induction l with
  | nil => intro st _; rfl
  | cons i rest ih =>
    intro st h
    unfold stepGo
    rw [h i (by simp)]
    exact ih st (fun j hj => h j (by simp [hj]))

theorem stepGo_inv (f : List Bool → FScore)
    (accept : OptState → ℕ → Option OptState)
    (hacc : ∀ s i s2, accept s i = some s2 → StInv f s2) :
    ∀ (l : List ℕ) (st : OptState) (found : Bool),
    (found = true → StInv f st) → (stepGo accept l st found).2 = true →
    StInv f (stepGo accept l st found).1 := by
  intro l
  induction l with
  | nil =>
    intro st found hf h
    exact hf h
  | cons i rest ih =>
    intro st found hf h
    unfold stepGo at h ⊢
    cases hacc2 : accept st i with
    | some st2 =>
      rw [hacc2] at h
      exact ih st2 true (fun _ => hacc st i st2 hacc2) h
    | none =>
      rw [hacc2] at h
      exact ih st found hf h

theorem scanAccept_inv (f : List Bool → FScore) (orig : List Bool) :
    ∀ (s : OptState) (i : ℕ) (s2 : OptState),
    scanAccept f orig s i = some s2 → StInv f s2 := by
  intro s i s2 h
  unfold scanAccept at h
  split at h
  · cases h
    exact ⟨rfl, rfl⟩
  · exact Option.noConfusion h

theorem relaxAccept_inv (f : List Bool → FScore) (orig : List Bool) :
    ∀ (s : OptState) (i : ℕ) (s2 : OptState),
    relaxAccept f orig s i = some s2 → StInv f s2 := by
  intro s i s2 h
  unfold relaxAccept at h
  split at h
  · cases h
    exact ⟨rfl, rfl⟩
  · exact Option.noConfusion h

theorem scanAll_inv (f : List Bool → FScore) (st : OptState)
    (h : (scanAll f st).2 = true) : StInv f (scanAll f st).1 :=
  stepGo_inv f (scanAccept f st.w) (scanAccept_inv f st.w) _ st false
    (fun hc => absurd hc (by simp)) h

theorem relaxScanAll_inv (f : List Bool → FScore) (st : OptState)
    (h : (relaxScanAll f st).2 = true) : StInv f (relaxScanAll f st).1 :=
  stepGo_inv f (relaxAccept f st.w) (relaxAccept_inv f st.w) _ st false
    (fun hc => absurd hc (by simp)) h

/-- When the loop exits at a stationary point, the final weight vector
rejects every smaller-popcount neighbor in the main scan, the slack of
its raw score passed the positivity assert, and the relax re-scan
rejects every smaller-popcount neighbor against the inflated
threshold. -/
theorem loopGo_stationary (f : List Bool → FScore) (cfg : SlackCfg) :
    ∀ (fuel : ℕ) (st stf : OptState),
    StInv f st → loopGo f cfg fuel st = .out stf true →
    NoShrinkImprove f stf.w
      ∧ FScore.lt (FScore.fin 0) (slackOf cfg (f stf.w)) = true
      ∧ NoRelaxMove f cfg stf.w := by
  intro fuel
  induction fuel with
  | zero =>
    intro st stf _ h
    unfold loopGo at h
    cases h
  | succ n ih =>
    intro st stf hinv h
    unfold loopGo at h
    by_cases hr : (scanAll f st).2 = true
    · rw [if_pos hr] at h
      exact ih _ _ (scanAll_inv f st hr) h
    · rw [if_neg hr] at h
      by_cases hs : FScore.lt (FScore.fin 0) (slackOf cfg st.score) = true
      · rw [if_pos hs] at h
        by_cases hr2 : (relaxScanAll f (relaxSt cfg st)).2 = true
        · rw [if_pos hr2] at h
          exact ih _ _ (relaxScanAll_inv f _ hr2) h
        · rw [if_neg hr2] at h
          obtain ⟨-, hscanrej⟩ :=
            stepGo_not_found (scanAccept f st.w) _ st
              (Bool.eq_false_iff.2 hr)
          obtain ⟨hrelaxfix, hrelaxrej⟩ :=
            stepGo_not_found (relaxAccept f (relaxSt cfg st).w) _
              (relaxSt cfg st) (Bool.eq_false_iff.2 hr2)
          injection h with h1 h2
          have hstf : stf = relaxSt cfg st := h1.symm.trans hrelaxfix
          subst hstf
          obtain ⟨hsc, hL1⟩ := hinv
          show NoShrinkImprove f st.w
            ∧ FScore.lt (FScore.fin 0) (slackOf cfg (f st.w)) = true
            ∧ NoRelaxMove f cfg st.w
          refine ⟨?_, ?_, ?_⟩
          · intro i hilt hpop
            have hrej := hscanrej i (List.mem_range.2 hilt)
            unfold scanAccept at hrej
            split at hrej
            · exact Option.noConfusion hrej
            next hcond =>
              rw [Bool.eq_false_iff]
              intro hle
              rw [← hsc] at hle
              exact hcond ⟨hle, Or.inl (by rw [hL1]; exact hpop)⟩
          · rw [← hsc]; exact hs
          · intro i hilt hpop
            have hrej := hrelaxrej i (List.mem_range.2 hilt)
            unfold relaxAccept at hrej
            simp only [relaxSt] at hrej
            split at hrej
            · exact Option.noConfusion hrej
            next hcond =>
              rw [Bool.eq_false_iff]
              intro hlt
              rw [← hsc] at hlt
              exact hcond ⟨by rw [hL1]; exact hpop, hlt⟩
      · rw [if_neg hs] at h
        cases h

/-- C4 amended: if a run of `optimize_integer_fiducials_slack` converges
(stationary point) at state `stc`, then re-running with
`initialWeights = stc.w` converges immediately with zero accepted moves
to the same subset **provided** every larger-popcount neighbor scores
strictly above `stc.w`'s raw score.  The proviso is what the original
claim is missing: passing `initialWeights` resets `lessWeightOnly` to
false (lines 579-583), so without it the re-run may accept a
score-preserving weight-increasing neighbor (see the counterexample). -/
theorem c4_amended (f : List Bool → FScore) (tflSc : FScore) (T : ℚ)
    (cfg : SlackCfg) (m mi : ℕ) (init : Option (List Bool)) (stc : OptState)
    (wrn : Bool) (m2 k : ℕ)
    (hrun : optimizeSlack f tflSc T cfg m mi init = .ok stc true wrn)
    (hgrow : NoGrowMove f stc.w) :
    optimizeSlack f tflSc T cfg m2 (k + 1) (some stc.w)
      = .ok ⟨stc.w, inflateStep cfg (f stc.w), popc stc.w, true, 0⟩ true false := by
  unfold optimizeSlack at hrun
  by_cases hx : xorTruthy cfg.fixedSlack cfg.slackFrac = true
  case neg =>
    rw [if_pos (by simp [Bool.eq_false_iff.2 hx])] at hrun
    exact OptOutcome.noConfusion hrun
  rw [if_neg (by simp [hx])] at hrun
  by_cases ht : tflResult tflSc T = true
  case neg =>
    rw [if_pos (by simp [Bool.eq_false_iff.2 ht])] at hrun
    exact OptOutcome.noConfusion hrun
  rw [if_neg (by simp [ht])] at hrun
  have hloop : loopGo f cfg mi (initState f m init) = .out stc true := by
    revert hrun
    cases hl : loopGo f cfg mi (initState f m init) with
    | crash => intro hrun; exact OptOutcome.noConfusion hrun
    | out st conv =>
      intro hrun
      injection hrun with h1 h2 h3
      rw [h1, h2]
  have hst0 : StInv f (initState f m init) := by
    cases init <;> exact ⟨rfl, rfl⟩
  obtain ⟨hshrink, hassert, hrelax⟩ :=
    loopGo_stationary f cfg mi (initState f m init) stc hst0 hloop
  -- now the re-run
  unfold optimizeSlack
  rw [if_neg (by simp [hx]), if_neg (by simp [ht])]
  have hrej : ∀ i ∈ List.range stc.w.length,
      scanAccept f stc.w ⟨stc.w, f stc.w, popc stc.w, false, 0⟩ i = none := by
    intro i hi
    unfold scanAccept
    rw [if_neg]
    intro hcond
    by_cases hpop : popc (flipAt stc.w i) < popc stc.w
    · exact absurd hcond.1 (Bool.eq_false_iff.1
        (hshrink i (List.mem_range.1 hi) hpop))
    · exact absurd hcond.1 (Bool.eq_false_iff.1
        (hgrow i (List.mem_range.1 hi) hpop))
  have hscan : scanAll f ⟨stc.w, f stc.w, popc stc.w, false, 0⟩
      = (⟨stc.w, f stc.w, popc stc.w, false, 0⟩, false) :=
    stepGo_all_none _ _ _ hrej
  have hrej2 : ∀ i ∈ List.range stc.w.length,
      relaxAccept f stc.w
        ⟨stc.w, inflateStep cfg (f stc.w), popc stc.w, true, 0⟩ i = none := by
    intro i hi
    unfold relaxAccept
    rw [if_neg]
    intro hcond
    have hpop : popc (flipAt stc.w i) < popc stc.w := hcond.1
    exact absurd hcond.2 (Bool.eq_false_iff.1
      (hrelax i (List.mem_range.1 hi) hpop))
  have hrscan : relaxScanAll f
      ⟨stc.w, inflateStep cfg (f stc.w), popc stc.w, true, 0⟩
      = (⟨stc.w, inflateStep cfg (f stc.w), popc stc.w, true, 0⟩, false) :=
    stepGo_all_none _ _ _ hrej2
  have hloop2 : loopGo f cfg (k + 1)
      ⟨stc.w, f stc.w, popc stc.w, false, 0⟩
      = .out ⟨stc.w, inflateStep cfg (f stc.w), popc stc.w, true, 0⟩ true := by
    unfold loopGo
    rw [hscan]
    simp only [Bool.false_eq_true, if_false]
    rw [if_pos hassert]
    have hrs : relaxSt cfg ⟨stc.w, f stc.w, popc stc.w, false, 0⟩
        = ⟨stc.w, inflateStep cfg (f stc.w), popc stc.w, true, 0⟩ := rfl
    rw [hrs, hrscan]
    simp
  simp only [initState, hloop2, ht, Bool.not_true]

/-- Witness for C4 amended: a one-fiducial landscape (`{0}` scores 1,
`{}` scores 100, `fixedSlack = 1`): the first run from all-ones converges
at `[true]`; the superset condition holds vacuously, and the re-run with
`initialWeights = [true]` converges immediately with zero accepted
moves. -/
theorem c4_amended_witness :
    optimizeSlack c4wf (FScore.fin 1) 1 ⟨some 1, none⟩ 1 2 (some [true])
      = .ok ⟨[true], inflateStep ⟨some 1, none⟩ (c4wf [true]),
          popc [true], true, 0⟩ true false :=
  c4_amended c4wf (FScore.fin 1) 1 ⟨some 1, none⟩ 1 2 none
    ⟨[true], FScore.fin 3, 1, true, 0⟩ false 1 1
    (by with_unfolding_all decide)
    (by
      intro i hi hpop
      have h0 : i = 0 := Nat.lt_one_iff.mp hi
      subst h0
      exact absurd (by decide) hpop)

theorem fnStep_fin_eval (f : List Bool → FScore) (lens : List ℕ) (b : ℚ)
    (cur x : List Bool) (t : ℚ) (ht : f x = FScore.fin t) :
    fnStep f lens (FScore.fin b, cur) x
      = if |t - b| < (1 : ℚ) / 100000000 then
          (if totalLen lens x < totalLen lens cur then (FScore.fin t, x)
           else (FScore.fin b, cur))
        else if t < b then (FScore.fin t, x) else (FScore.fin b, cur) := by
  simp only [fnStep, ht, FScore.sub, FScore.neg, FScore.add, FScore.fabs,
    FScore.lt]
  rw [show t + -b = t - b from (sub_eq_add_neg t b).symm]
  simp only [decide_eq_true_eq]

theorem c9_fold_inv (f : List Bool → FScore) (lens : List ℕ) :
    ∀ (rest p : List (List Bool)) (b : ℚ) (cur : List Bool),
    cur ∈ p → f cur = FScore.fin b →
    (∀ r ∈ p, ∀ q : ℚ, f r = FScore.fin q →
      b ≤ q + ((p.length - 1 : ℕ) : ℚ) * (1 / 100000000)) →
    (∀ r ∈ rest, ∃ q : ℚ, f r = FScore.fin q) →
    ∃ c : ℚ,
      (rest.foldl (fnStep f lens) (FScore.fin b, cur)).1 = FScore.fin c
      ∧ (rest.foldl (fnStep f lens) (FScore.fin b, cur)).2 ∈ p ++ rest
      ∧ f (rest.foldl (fnStep f lens) (FScore.fin b, cur)).2 = FScore.fin c
      ∧ ∀ r ∈ p ++ rest, ∀ q : ℚ, f r = FScore.fin q →
          c ≤ q + (((p ++ rest).length - 1 : ℕ) : ℚ) * (1 / 100000000) := by
  intro rest
  induction rest with
  | nil =>
    intro p b cur hcur hb hinv _
    exact ⟨b, rfl, by simpa using hcur, hb, by simpa using hinv⟩
  | cons x rest2 ih =>
    intro p b cur hcur hb hinv hfin
    obtain ⟨t, ht⟩ := hfin x (by simp)
    have hδ : (0 : ℚ) < 1 / 100000000 := by norm_num
    have hpne : p ≠ [] := List.ne_nil_of_mem hcur
    have hp1 : 1 ≤ p.length := List.length_pos.2 hpne
    have hcast : ((p.length - 1 : ℕ) : ℚ) = (p.length : ℚ) - 1 := by
      push_cast [Nat.cast_sub hp1]
      ring
    have hL1 : (1 : ℚ) ≤ (p.length : ℚ) := by exact_mod_cast hp1
    have hlen2 : (((p ++ [x]).length - 1 : ℕ) : ℚ) = (p.length : ℚ) := by
      simp
    have happ : (p ++ [x]) ++ rest2 = p ++ x :: rest2 := by
      rw [List.append_assoc]
      rfl
    have hfin2 : ∀ r ∈ rest2, ∃ q : ℚ, f r = FScore.fin q :=
      fun r hr => hfin r (by simp [hr])
    rw [List.foldl_cons, fnStep_fin_eval f lens b cur x t ht]
    by_cases h1 : |t - b| < (1 : ℚ) / 100000000
    · have htb : t - b < 1 / 100000000 := (abs_sub_lt_iff.1 h1).1
      have hbt : b - t < 1 / 100000000 := (abs_sub_lt_iff.1 h1).2
      rw [if_pos h1]
      by_cases h2 : totalLen lens x < totalLen lens cur
      · rw [if_pos h2]
        have hinv2 : ∀ r ∈ p ++ [x], ∀ q : ℚ, f r = FScore.fin q →
            t ≤ q + (((p ++ [x]).length - 1 : ℕ) : ℚ) * (1 / 100000000) := by
          intro r hr q hq
          rw [hlen2]
          rcases List.mem_append.1 hr with hrp | hrx
          · have := hinv r hrp q hq
            rw [hcast] at this
            nlinarith
          · have hrx2 : r = x := by simpa using hrx
            subst hrx2
            have : t = q := FScore.fin.inj (ht.symm.trans hq)
            subst this
            nlinarith
        obtain ⟨c, hc1, hc2, hc3, hc4⟩ :=
          ih (p ++ [x]) t x (by simp) ht hinv2 hfin2
        rw [happ] at hc2 hc4
        exact ⟨c, hc1, hc2, hc3, hc4⟩
      · rw [if_neg h2]
        have hinv2 : ∀ r ∈ p ++ [x], ∀ q : ℚ, f r = FScore.fin q →
            b ≤ q + (((p ++ [x]).length - 1 : ℕ) : ℚ) * (1 / 100000000) := by
          intro r hr q hq
          rw [hlen2]
          rcases List.mem_append.1 hr with hrp | hrx
          · have := hinv r hrp q hq
            rw [hcast] at this
            nlinarith
          · have hrx2 : r = x := by simpa using hrx
            subst hrx2
            have : t = q := FScore.fin.inj (ht.symm.trans hq)
            subst this
            nlinarith
        obtain ⟨c, hc1, hc2, hc3, hc4⟩ :=
          ih (p ++ [x]) b cur (by simp [hcur]) hb hinv2 hfin2
        rw [happ] at hc2 hc4
        exact ⟨c, hc1, hc2, hc3, hc4⟩
    · rw [if_neg h1]
      by_cases h3 : t < b
      · rw [if_pos h3]
        have hinv2 : ∀ r ∈ p ++ [x], ∀ q : ℚ, f r = FScore.fin q →
            t ≤ q + (((p ++ [x]).length - 1 : ℕ) : ℚ) * (1 / 100000000) := by
          intro r hr q hq
          rw [hlen2]
          rcases List.mem_append.1 hr with hrp | hrx
          · have := hinv r hrp q hq
            rw [hcast] at this
            nlinarith
          · have hrx2 : r = x := by simpa using hrx
            subst hrx2
            have : t = q := FScore.fin.inj (ht.symm.trans hq)
            subst this
            nlinarith
        obtain ⟨c, hc1, hc2, hc3, hc4⟩ :=
          ih (p ++ [x]) t x (by simp) ht hinv2 hfin2
        rw [happ] at hc2 hc4
        exact ⟨c, hc1, hc2, hc3, hc4⟩
      · rw [if_neg h3]
        have hbt2 : b ≤ t := le_of_not_lt h3
        have hinv2 : ∀ r ∈ p ++ [x], ∀ q : ℚ, f r = FScore.fin q →
            b ≤ q + (((p ++ [x]).length - 1 : ℕ) : ℚ) * (1 / 100000000) := by
          intro r hr q hq
          rw [hlen2]
          rcases List.mem_append.1 hr with hrp | hrx
          · have := hinv r hrp q hq
            rw [hcast] at this
            nlinarith
          · have hrx2 : r = x := by simpa using hrx
            subst hrx2
            have : t = q := FScore.fin.inj (ht.symm.trans hq)
            subst this
            nlinarith
        obtain ⟨c, hc1, hc2, hc3, hc4⟩ :=
          ih (p ++ [x]) b cur (by simp [hcur]) hb hinv2 hfin2
        rw [happ] at hc2 hc4
        exact ⟨c, hc1, hc2, hc3, hc4⟩

/-- C9 amended: the `fixedNum` sweep scores every enumerated vector and
keeps a running best: a candidate within `1e-8` of the running best
replaces it exactly when its selected sequences have strictly smaller
total length, and a candidate that improves the running best by at least
`1e-8` always replaces it.  The returned candidate is one of the
enumerated vectors and its score exceeds no candidate's score by more
than `(N - 1) * 1e-8` (N = number of candidates); through chains of
near-ties it can exceed the true minimum by more than `1e-8` itself, so
the original claim's "achieves the minimum" holds only up to this
drift bound. -/
theorem c9_amended (f : List Bool → FScore) (lens : List ℕ)
    (rows : List (List Bool)) (hne : rows ≠ [])
    (hfin : ∀ r ∈ rows, ∃ q : ℚ, f r = FScore.fin q) :
    ∃ b : ℚ, (fixedNumFold f lens rows).1 = FScore.fin b
      ∧ (fixedNumFold f lens rows).2 ∈ rows
      ∧ f (fixedNumFold f lens rows).2 = FScore.fin b
      ∧ ∀ r ∈ rows, ∀ q : ℚ, f r = FScore.fin q →
          b ≤ q + ((rows.length - 1 : ℕ) : ℚ) * (1 / 100000000) := by
  obtain ⟨x, rest, rfl⟩ := List.exists_cons_of_ne_nil hne
  obtain ⟨t, ht⟩ := hfin x (by simp)
  have hstep0 : fnStep f lens (FScore.pinf, []) x = (FScore.fin t, x) := by
    simp [fnStep, ht, FScore.sub, FScore.neg, FScore.add, FScore.fabs,
      FScore.lt]
  unfold fixedNumFold
  rw [List.foldl_cons, hstep0]
  have hinv0 : ∀ r ∈ [x], ∀ q : ℚ, f r = FScore.fin q →
      t ≤ q + ((([x] : List (List Bool)).length - 1 : ℕ) : ℚ) * (1 / 100000000) := by
    intro r hr q hq
    have hrx : r = x := by simpa using hr
    subst hrx
    have : t = q := FScore.fin.inj (ht.symm.trans hq)
    subst this
    simp
  have hres := c9_fold_inv f lens rest [x] t x (by simp) ht hinv0
    (fun r hr => hfin r (by simp [hr]))
  rwa [show ([x] : List (List Bool)) ++ rest = x :: rest from rfl] at hres

/-- Witness for C9 amended: three candidates with constant score 1 and
lengths `3, 2, 1`; the fold returns an enumerated candidate within the
drift bound. -/
theorem c9_amended_witness :
    ∃ b : ℚ,
      (fixedNumFold (fun _ => FScore.fin 1) [3, 2, 1]
        [[true, false, false], [false, true, false], [false, false, true]]).1
        = FScore.fin b
      ∧ (fixedNumFold (fun _ => FScore.fin 1) [3, 2, 1]
        [[true, false, false], [false, true, false], [false, false, true]]).2
        ∈ [[true, false, false], [false, true, false], [false, false, true]]
      ∧ (fun (_ : List Bool) => FScore.fin 1)
          (fixedNumFold (fun _ => FScore.fin 1) [3, 2, 1]
            [[true, false, false], [false, true, false], [false, false, true]]).2
        = FScore.fin b
      ∧ ∀ r ∈ [[true, false, false], [false, true, false], [false, false, true]],
          ∀ q : ℚ, (fun (_ : List Bool) => FScore.fin 1) r = FScore.fin q →
          b ≤ q + ((([[true, false, false], [false, true, false],
              [false, false, true]] : List (List Bool)).length - 1 : ℕ) : ℚ)
            * (1 / 100000000) :=
  c9_amended (fun _ => FScore.fin 1) [3, 2, 1]
    [[true, false, false], [false, true, false], [false, false, true]]
    (by simp) (fun r _ => ⟨1, rfl⟩)

/-- C10: `generate_fiducials` mutates `algorithm_kwargs` in place
(lines 57-68): afterwards the dict has `fidList` and `verbosity`
entries, and `slackFrac = 1.0` when neither slack key was supplied; and
because the default dict object is shared between calls made without an
explicit argument, a second call leaves the already-populated dict
unchanged, so the entries persist. -/
theorem c10_kwargs_mutation (a v a2 v2 : ℕ) (d : FidAlgKwargs)
    (h1 : d.slackFrac = none) (h2 : d.fixedSlack = none) :
    (updateAlgKwargs a v d).fidList.isSome = true
    ∧ (updateAlgKwargs a v d).verbosity.isSome = true
    ∧ (updateAlgKwargs a v d).slackFrac = some 1
    ∧ updateAlgKwargs a2 v2 (updateAlgKwargs a v d) = updateAlgKwargs a v d := by
  obtain ⟨sf, fs, fl, vb⟩ := d
  simp only at h1 h2
  subst h1 h2
  cases fl <;> cases vb <;> simp [updateAlgKwargs]

/-- Witness for C10: the shared default dict starts empty; after the
first call it holds `fidList`, `verbosity` and `slackFrac = 1.0`, and a
second call without an explicit argument leaves it unchanged. -/
theorem c10_kwargs_mutation_witness :
    (FidAlgKwargs.slackFrac ⟨none, none, none, none⟩ = none)
    ∧ (FidAlgKwargs.fixedSlack ⟨none, none, none, none⟩ = none)
    ∧ ((updateAlgKwargs 7 3 ⟨none, none, none, none⟩).fidList.isSome = true
      ∧ (updateAlgKwargs 7 3 ⟨none, none, none, none⟩).verbosity.isSome = true
      ∧ (updateAlgKwargs 7 3 ⟨none, none, none, none⟩).slackFrac = some 1
      ∧ updateAlgKwargs 9 4 (updateAlgKwargs 7 3 ⟨none, none, none, none⟩)
          = updateAlgKwargs 7 3 ⟨none, none, none, none⟩) :=
  ⟨rfl, rfl, c10_kwargs_mutation 7 3 9 4 ⟨none, none, none, none⟩ rfl rfl⟩

end FidSel
